import Mathlib

set_option autoImplicit false

/-! Shallow embedding of the ISBN extraction pipeline of `src/main.py`.
Strings are modelled as `List Char`; Python character classes are modelled
over their ASCII content. Definitions follow the source functions and keep
their names. -/

/-- ASCII content of the Python whitespace class used in the source's
hyphen-or-space substitutions. -/
def pySpace (c : Char) : Bool :=
  c = ' ' || c = '\t' || c = '\n' || c = '\r' || c = '\x0b' || c = '\x0c'

/-- Deletion of every hyphen or whitespace character from a token, the
substitution the source applies before length checks and checksum work. -/
def stripHS (s : List Char) : List Char :=
  s.filter (fun c => !(c = '-' || pySpace c))

/-- Hyphen/space stripping followed by upper-casing: the cleaned form used by
`find_potential_isbns`, `validate_isbn10` and `deduplicate_isbns`. -/
def normUp (s : List Char) : List Char :=
  (stripHS s).map Char.toUpper

/-- Numeric value of an ASCII digit character. -/
def digitVal (c : Char) : Nat := c.toNat - 48

/-- Characters allowed at the 10th position of a cleaned ISBN-10. -/
def isTail10 (c : Char) : Bool := c.isDigit || c = 'X'

/-- Character list of a string literal. -/
def str (s : String) : List Char := s.data

/-- `validate_isbn10` from `src/main.py`: clean the token, require length 10
with nine digits and a digit-or-X check character, then test the weighted sum
against 11. -/
def validate_isbn10 (isbn : List Char) : Bool :=
  let cleaned := normUp isbn
  if cleaned.length ≠ 10 then false
  else if !((cleaned.take 9).all Char.isDigit) then false
  else if !(isTail10 (cleaned.getD 9 ' ')) then false
  else
    let base := (List.range 9).foldl (fun t i => t + digitVal (cleaned.getD i ' ') * (10 - i)) 0
    let total := base + (if cleaned.getD 9 ' ' = 'X' then 10 else digitVal (cleaned.getD 9 ' '))
    total % 11 == 0

/-- `validate_isbn13` from `src/main.py`: strip hyphens and spaces, require
thirteen digits, then compare the 13th digit with the alternating 1/3 weighted
check digit. -/
def validate_isbn13 (isbn : List Char) : Bool :=
  let cleaned := stripHS isbn
  if cleaned.length ≠ 13 then false
  else if !(cleaned.all Char.isDigit) then false
  else
    let total := (List.range 12).foldl
      (fun t i =>
        if i % 2 = 0 then t + digitVal (cleaned.getD i ' ')
        else t + digitVal (cleaned.getD i ' ') * 3) 0
    let check := (10 - total % 10) % 10
    digitVal (cleaned.getD 12 ' ') == check

/-- Specification-side weighted sum of an ISBN-10: digits weighted 10 down to
2 plus the value of the check character. -/
def isbn10WeightedSum (c : List Char) : Nat :=
  (∑ i in Finset.range 9, digitVal (c.getD i ' ') * (10 - i)) +
    (if c.getD 9 ' ' = 'X' then 10 else digitVal (c.getD 9 ' '))

/-- Specification-side statement of ISBN-10 validity as the claim phrases it. -/
def Isbn10Spec (s : List Char) : Prop :=
  (normUp s).length = 10 ∧
    (∀ i, i < 9 → ((normUp s).getD i ' ').isDigit = true) ∧
    (((normUp s).getD 9 ' ').isDigit = true ∨ (normUp s).getD 9 ' ' = 'X') ∧
    isbn10WeightedSum (normUp s) % 11 = 0

/-- Specification-side weighted sum of the first twelve ISBN-13 digits. -/
def isbn13WeightedSum (c : List Char) : Nat :=
  ∑ i in Finset.range 12, digitVal (c.getD i ' ') * (if i % 2 = 0 then 1 else 3)

/-- Specification-side statement of ISBN-13 validity as the claim phrases it. -/
def Isbn13Spec (s : List Char) : Prop :=
  (stripHS s).length = 13 ∧
    (∀ i, i < 13 → ((stripHS s).getD i ' ').isDigit = true) ∧
    digitVal ((stripHS s).getD 12 ' ') = (10 - isbn13WeightedSum (stripHS s) % 10) % 10

theorem foldl_range_add (f : Nat → Nat) (n : Nat) :
    (List.range n).foldl (fun t i => t + f i) 0 = ∑ i in Finset.range n, f i := by
  induction n with
  | zero => simp
  | succ n ih =>
      rw [List.range_succ, List.foldl_append, ih, Finset.sum_range_succ]
      simp

theorem take_all_iff (p : Char → Bool) :
    ∀ (n : Nat) (c : List Char),
      ((c.take n).all p = true) ↔ (∀ i, i < n → i < c.length → p (c.getD i ' ') = true) := by
  intro n
  induction n with
  | zero => intro c; simp
  | succ n ih =>
      intro c
      cases c with
      | nil => simp
      | cons a l =>
          simp only [List.take_succ_cons, List.all_cons, Bool.and_eq_true, ih l]
          constructor
          · rintro ⟨ha, h⟩ i hi hlen
            cases i with
            | zero => simpa using ha
            | succ j =>
                have := h j (by omega) (by simpa [List.length_cons] using hlen)
                simpa using this
          · intro h
            refine ⟨by simpa using h 0 (by omega) (by simp), ?_⟩
            intro i hi hlen
            have := h (i + 1) (by omega) (by simp [List.length_cons]; omega)
            simpa using this

theorem all_iff_lt_length (p : Char → Bool) (c : List Char) :
    (c.all p = true) ↔ (∀ i, i < c.length → p (c.getD i ' ') = true) := by
  have h := take_all_iff p c.length c
  rw [List.take_length] at h
  constructor
  · intro hall i hi; exact (h.mp hall) i hi hi
  · intro hall; exact h.mpr (fun i hi _ => hall i hi)

theorem isTail10_iff (c : Char) : isTail10 c = true ↔ (c.isDigit = true ∨ c = 'X') := by
  simp [isTail10]

theorem validate_isbn10_unfold (s : List Char) :
    validate_isbn10 s = true ↔
      ((normUp s).length = 10 ∧ ((normUp s).take 9).all Char.isDigit = true ∧
        isTail10 ((normUp s).getD 9 ' ') = true ∧
        ((List.range 9).foldl (fun t i => t + digitVal ((normUp s).getD i ' ') * (10 - i)) 0 +
          (if (normUp s).getD 9 ' ' = 'X' then 10 else digitVal ((normUp s).getD 9 ' '))) % 11
            = 0) := by
  unfold validate_isbn10
  by_cases h1 : (normUp s).length = 10
  · by_cases h2 : ((normUp s).take 9).all Char.isDigit = true
    · by_cases h3 : isTail10 ((normUp s).getD 9 ' ') = true
      · simp [h1, h2, h3, Nat.beq_eq_true_eq]
      · simp only [Bool.not_eq_true] at h3
        simp [h1, h2, h3]
    · simp only [Bool.not_eq_true] at h2
      simp [h1, h2]
  · simp [h1]

/-- C1: `validate_isbn10` succeeds exactly when the cleaned (hyphen/space
stripped, upper-cased) token has length 10 with nine digits, a digit-or-X
check character, and a weighted sum divisible by 11; and the two concrete
examples evaluate as the claim states. -/
theorem validate_isbn10_correct :
    (∀ s, validate_isbn10 s = true ↔ Isbn10Spec s) ∧
      validate_isbn10 (str "0306406152") = true ∧
      validate_isbn10 (str "0306406151") = false := by
  refine ⟨?_, by decide, by decide⟩
  intro s
  rw [validate_isbn10_unfold]
  unfold Isbn10Spec
  constructor
  · rintro ⟨h1, h2, h3, h4⟩
    refine ⟨h1, ?_, (isTail10_iff _).mp h3, ?_⟩
    · intro i hi
      exact (take_all_iff Char.isDigit 9 (normUp s)).mp h2 i hi (by omega)
    · unfold isbn10WeightedSum
      rw [← foldl_range_add (fun i => digitVal ((normUp s).getD i ' ') * (10 - i)) 9]
      exact h4
  · rintro ⟨h1, h2, h3, h4⟩
    refine ⟨h1, ?_, (isTail10_iff _).mpr h3, ?_⟩
    · exact (take_all_iff Char.isDigit 9 (normUp s)).mpr (fun i hi _ => h2 i hi)
    · unfold isbn10WeightedSum at h4
      rw [foldl_range_add (fun i => digitVal ((normUp s).getD i ' ') * (10 - i)) 9]
      exact h4

theorem validate_isbn13_unfold (s : List Char) :
    validate_isbn13 s = true ↔
      ((stripHS s).length = 13 ∧ (stripHS s).all Char.isDigit = true ∧
        digitVal ((stripHS s).getD 12 ' ')
          = (10 - ((List.range 12).foldl
              (fun t i =>
                if i % 2 = 0 then t + digitVal ((stripHS s).getD i ' ')
                else t + digitVal ((stripHS s).getD i ' ') * 3) 0) % 10) % 10) := by
  unfold validate_isbn13
  by_cases h1 : (stripHS s).length = 13
  · by_cases h2 : (stripHS s).all Char.isDigit = true
    · simp [h1, h2, Nat.beq_eq_true_eq]
    · simp only [Bool.not_eq_true] at h2
      simp [h1, h2]
  · simp [h1]

theorem isbn13_fold_eq (s : List Char) :
    (List.range 12).foldl
      (fun t i =>
        if i % 2 = 0 then t + digitVal ((stripHS s).getD i ' ')
        else t + digitVal ((stripHS s).getD i ' ') * 3) 0
      = isbn13WeightedSum (stripHS s) := by
  have hfun :
      (fun (t : Nat) (i : Nat) =>
        if i % 2 = 0 then t + digitVal ((stripHS s).getD i ' ')
        else t + digitVal ((stripHS s).getD i ' ') * 3)
      = fun (t : Nat) (i : Nat) =>
        t + digitVal ((stripHS s).getD i ' ') * (if i % 2 = 0 then 1 else 3) := by
    funext t i
    by_cases h : i % 2 = 0 <;> simp [h]
  rw [hfun,
    foldl_range_add (fun i => digitVal ((stripHS s).getD i ' ') * (if i % 2 = 0 then 1 else 3)) 12]
  rfl

/-- C2: `validate_isbn13` succeeds exactly when the hyphen/space stripped token
is thirteen digits whose 13th digit matches the alternating 1/3 weighted check
digit; and the two concrete examples evaluate as the claim states. -/
theorem validate_isbn13_correct :
    (∀ s, validate_isbn13 s = true ↔ Isbn13Spec s) ∧
      validate_isbn13 (str "9780306406157") = true ∧
      validate_isbn13 (str "9780306406158") = false := by
  refine ⟨?_, by decide, by decide⟩
  intro s
  rw [validate_isbn13_unfold]
  unfold Isbn13Spec
  rw [isbn13_fold_eq]
  constructor
  · rintro ⟨h1, h2, h3⟩
    refine ⟨h1, ?_, h3⟩
    intro i hi
    exact (all_iff_lt_length Char.isDigit (stripHS s)).mp h2 i (by omega)
  · rintro ⟨h1, h2, h3⟩
    refine ⟨h1, ?_, h3⟩
    exact (all_iff_lt_length Char.isDigit (stripHS s)).mpr (fun i hi => h2 i (by omega))

/-! ### The candidate extractor: regexes of `find_potential_isbns`

The ISBN regex is `(?<![0-9])(\d[\d\-\s]{8,16}[\dXx])\b`, scanned left to
right without overlap; the URL regex removes `https?://` runs first. Both are
embedded as executable backtracking matchers. The recursion is driven by a
fuel argument that starts at the text length; each step consumes at least one
character, so the fuel never runs out on the initial call. -/

/-- Characters of the bracketed run class: digits, hyphens and whitespace. -/
def isRunChar (c : Char) : Bool := c.isDigit || c = '-' || pySpace c

/-- Characters allowed as the final matched character: digit or X or x. -/
def isTailChar (c : Char) : Bool := c.isDigit || c = 'X' || c = 'x'

/-- Word characters for the trailing word-boundary test. -/
def isWordChar (c : Char) : Bool := c.isAlphanum || c = '_'

/-- Consume exactly `k` run-class characters, returning them and the rest. -/
def takeRunExact : Nat → List Char → Option (List Char × List Char)
  | 0, l => some ([], l)
  | _ + 1, [] => none
  | k + 1, c :: rest =>
    if isRunChar c then
      match takeRunExact k rest with
      | some (run, after) => some (c :: run, after)
      | none => none
    else none

/-- A word boundary follows the previous word character here. -/
def atBoundary : List Char → Bool
  | [] => true
  | c :: _ => !isWordChar c

/-- Attempt the rest of the pattern with a run of exactly `k` characters. -/
def tryTail (rest : List Char) (k : Nat) : Option (List Char × List Char) :=
  match takeRunExact k rest with
  | none => none
  | some (run, after) =>
    match after with
    | [] => none
    | d :: after2 =>
      if isTailChar d && atBoundary after2 then some (run ++ [d], after2) else none

/-- Backtracking over candidate run lengths, first success wins. -/
def tryKs : List Nat → List Char → Option (List Char × List Char)
  | [], _ => none
  | k :: ks, rest =>
    match tryTail rest k with
    | some r => some r
    | none => tryKs ks rest

/-- The greedy order of run lengths for the `{8,16}` repetition. -/
def kDescend : List Nat := [16, 15, 14, 13, 12, 11, 10, 9, 8]

/-- Attempt the ISBN pattern with the scan head at `c`; on success return the
matched characters and the remaining text. -/
def matchCore (c : Char) (rest : List Char) : Option (List Char × List Char) :=
  if c.isDigit then
    match tryKs kDescend rest with
    | some (m, after) => some (c :: m, after)
    | none => none
  else none

/-- Whether the last character of a match is a digit, for the lookbehind flag. -/
def lastDigit (m : List Char) : Bool :=
  match m.getLast? with
  | some d => d.isDigit
  | none => false

/-- The scan loop of `re.finditer`: `prev` records whether the character just
before the scan head is a digit (the `(?<![0-9])` lookbehind), `pos` is the
absolute position of the head. -/
def finditerAux : Nat → Bool → Nat → List Char → List (Nat × List Char)
  | 0, _, _, _ => []
  | _ + 1, _, _, [] => []
  | fuel + 1, prev, pos, c :: rest =>
    if prev then finditerAux fuel c.isDigit (pos + 1) rest
    else
      match matchCore c rest with
      | some (m, after) => (pos, m) :: finditerAux fuel (lastDigit m) (pos + m.length) after
      | none => finditerAux fuel c.isDigit (pos + 1) rest

/-- All raw matches of the ISBN pattern with their start positions. -/
def finditer (text : List Char) : List (Nat × List Char) :=
  finditerAux text.length false 0 text

/-- Body characters of the URL regex: everything outside its excluded class. -/
def isUrlBody (c : Char) : Bool :=
  !(pySpace c || c = '<' || c = '>' || c = '"' || c = Char.ofNat 123 ||
    c = Char.ofNat 125 || c = '|' || c = '\\' || c = '^' || c = Char.ofNat 96 ||
    c = '[' || c = ']')

/-- Greedy one-or-more URL body characters. -/
def urlBody : List Char → Option (List Char)
  | [] => none
  | c :: rest => if isUrlBody c then some (rest.dropWhile isUrlBody) else none

/-- Match `https?://` plus body at the head of the list. -/
def matchUrl : List Char → Option (List Char)
  | 'h' :: 't' :: 't' :: 'p' :: 's' :: ':' :: '/' :: '/' :: rest => urlBody rest
  | 'h' :: 't' :: 't' :: 'p' :: ':' :: '/' :: '/' :: rest => urlBody rest
  | _ => none

/-- `re.sub` of the URL pattern by a single space, scanning left to right. -/
def stripUrlsAux : Nat → List Char → List Char
  | 0, l => l
  | _ + 1, [] => []
  | fuel + 1, c :: rest =>
    match matchUrl (c :: rest) with
    | some after => ' ' :: stripUrlsAux fuel after
    | none => c :: stripUrlsAux fuel rest

/-- Text with URL-shaped substrings replaced by spaces. -/
def stripUrls (text : List Char) : List Char := stripUrlsAux text.length text

/-- Occurrence of the letters `isbn` at the head of the list. -/
def isbnAt : List Char → Bool
  | 'i' :: 's' :: 'b' :: 'n' :: _ => true
  | _ => false

/-- `str.rfind("isbn")`: start index of the last occurrence, if any. -/
def rfindIsbn (l : List Char) : Option Nat :=
  ((List.range (l.length + 1)).filter (fun i => isbnAt (l.drop i))).getLast?

/-- `has_isbn_nearby` from `src/main.py`: look for the marker in a lower-cased
window of `max_distance + 4` characters before the match start. -/
def has_isbn_nearby (text : List Char) (mstart mend maxdist : Nat) : Bool :=
  let sstart := mstart - maxdist - 4
  let stext := ((text.drop sstart).take (mstart - sstart)).map Char.toLower
  match rfindIsbn stext with
  | some pos => decide (stext.length - pos - 4 ≤ maxdist)
  | none => false

/-- Python `str.strip`: whitespace removed from both ends. -/
def pyStrip (l : List Char) : List Char :=
  ((l.dropWhile pySpace).reverse.dropWhile pySpace).reverse

/-- One extracted candidate: raw matched span and its context window. -/
structure Candidate where
  isbn : List Char
  context : List Char
deriving DecidableEq

/-- The `context_chars`-character window around a match, stripped. -/
def mkContext (t : List Char) (mstart mend ctx : Nat) : List Char :=
  let s := mstart - ctx
  let e := min t.length (mend + ctx)
  pyStrip ((t.drop s).take (e - s))

/-- `find_potential_isbns` from `src/main.py`: strip URLs, scan for raw
matches, keep those whose cleaned form has a plausible ISBN shape and whose
text has the marker nearby. -/
def find_potential_isbns (text : List Char) (context_chars : Nat) (proximity : Nat) :
    List Candidate :=
  let t := stripUrls text
  (finditer t).filterMap (fun p =>
    let mstart := p.1
    let m := p.2
    let cleaned := normUp m
    if cleaned.length = 10 then
      if (cleaned.take 9).all Char.isDigit && isTail10 (cleaned.getD 9 ' ') then
        if has_isbn_nearby t mstart (mstart + m.length) proximity then
          some { isbn := m, context := mkContext t mstart (mstart + m.length) context_chars }
        else none
      else none
    else if cleaned.length = 13 then
      if cleaned.all Char.isDigit then
        if has_isbn_nearby t mstart (mstart + m.length) proximity then
          some { isbn := m, context := mkContext t mstart (mstart + m.length) context_chars }
        else none
      else none
    else none)

example : finditer (str "123456789012345678") = [(0, str "123456789012345678")] := by decide
example : finditer (str "123456789") = [] := by decide
example : find_potential_isbns (str "Call 1234567890 now") 50 6 = [] := by decide
example :
    (find_potential_isbns (str "ISBN 0-306-40615-2 great book") 50 6).map
      (fun c => normUp c.isbn) = [str "0306406152"] := by decide

/-! ### Lemmas about the raw-match engine -/

theorem takeRunExact_sound :
    ∀ (k : Nat) (l run after : List Char), takeRunExact k l = some (run, after) →
      run.length = k ∧ l = run ++ after ∧ run.all isRunChar = true := by
  intro k
  induction k with
  | zero =>
      intro l run after h
      simp only [takeRunExact, Option.some.injEq, Prod.mk.injEq] at h
      obtain ⟨h1, h2⟩ := h
      subst h1; subst h2
      simp
  | succ k ih =>
      intro l run after h
      cases l with
      | nil => simp [takeRunExact] at h
      | cons c rest =>
          simp only [takeRunExact] at h
          by_cases hc : isRunChar c = true
          · rw [if_pos hc] at h
            cases htr : takeRunExact k rest with
            | none => rw [htr] at h; simp at h
            | some pr =>
                obtain ⟨run', after'⟩ := pr
                rw [htr] at h
                simp only [Option.some.injEq, Prod.mk.injEq] at h
                obtain ⟨h1, h2⟩ := h
                obtain ⟨ih1, ih2, ih3⟩ := ih rest run' after' htr
                subst h1; subst h2; subst ih2
                simp [List.all_cons, hc, ih1, ih3]
          · rw [if_neg hc] at h
            simp at h

theorem takeRunExact_complete :
    ∀ (k : Nat) (l : List Char), k ≤ l.length → (l.take k).all isRunChar = true →
      takeRunExact k l = some (l.take k, l.drop k) := by
  intro k
  induction k with
  | zero => intro l _ _; simp [takeRunExact]
  | succ k ih =>
      intro l hk hall
      cases l with
      | nil => simp at hk
      | cons c rest =>
          simp only [List.take_succ_cons, List.all_cons, Bool.and_eq_true] at hall
          obtain ⟨hc, hrest⟩ := hall
          simp only [takeRunExact, if_pos hc, List.take_succ_cons, List.drop_succ_cons]
          rw [ih rest (by simpa [List.length_cons, Nat.succ_le_succ_iff] using hk) hrest]

theorem takeRunExact_overflow :
    ∀ (k : Nat) (l : List Char), l.length < k → takeRunExact k l = none := by
  intro k
  induction k with
  | zero => intro l h; omega
  | succ k ih =>
      intro l h
      cases l with
      | nil => simp [takeRunExact]
      | cons c rest =>
          simp only [takeRunExact]
          by_cases hc : isRunChar c = true
          · rw [if_pos hc, ih rest (by simp [List.length_cons] at h; omega)]
          · rw [if_neg hc]

theorem tryTail_sound {rest : List Char} {k : Nat} {m after : List Char}
    (h : tryTail rest k = some (m, after)) :
    ∃ run d, m = run ++ [d] ∧ rest = run ++ d :: after ∧ run.length = k ∧
      run.all isRunChar = true ∧ isTailChar d = true ∧ atBoundary after = true := by
  unfold tryTail at h
  cases htr : takeRunExact k rest with
  | none => rw [htr] at h; simp at h
  | some pr =>
      obtain ⟨run, after1⟩ := pr
      rw [htr] at h
      obtain ⟨hlen, heq, hall⟩ := takeRunExact_sound k rest run after1 htr
      cases after1 with
      | nil => simp at h
      | cons d after2 =>
          dsimp only at h
          by_cases hd : (isTailChar d && atBoundary after2) = true
          · rw [if_pos hd] at h
            simp only [Option.some.injEq, Prod.mk.injEq] at h
            obtain ⟨h1, h2⟩ := h
            subst h1; subst h2
            simp only [Bool.and_eq_true] at hd
            exact ⟨run, d, rfl, heq, hlen, hall, hd.1, hd.2⟩
          · rw [if_neg hd] at h
            simp at h

theorem tryTail_overflow {rest : List Char} {k : Nat} (h : rest.length < k) :
    tryTail rest k = none := by
  unfold tryTail
  rw [takeRunExact_overflow k rest h]

theorem tryTail_full {rest : List Char} : tryTail rest rest.length = none := by
  unfold tryTail
  cases htr : takeRunExact rest.length rest with
  | none => rfl
  | some pr =>
      obtain ⟨run, after1⟩ := pr
      obtain ⟨hlen, heq, -⟩ := takeRunExact_sound _ rest run after1 htr
      have hlen2 := congrArg List.length heq
      rw [List.length_append, hlen] at hlen2
      have hnil : after1 = [] := List.eq_nil_of_length_eq_zero (by omega)
      subst hnil
      rfl

theorem tryKs_sound :
    ∀ (ks : List Nat) (rest : List Char) (r : List Char × List Char),
      tryKs ks rest = some r → ∃ k ∈ ks, tryTail rest k = some r := by
  intro ks
  induction ks with
  | nil => intro rest r h; simp [tryKs] at h
  | cons k0 ks ih =>
      intro rest r h
      simp only [tryKs] at h
      cases ht : tryTail rest k0 with
      | some r0 =>
          rw [ht] at h
          simp only [Option.some.injEq] at h
          subst h
          exact ⟨k0, by simp, ht⟩
      | none =>
          rw [ht] at h
          obtain ⟨k, hk, hkt⟩ := ih rest r h
          exact ⟨k, by simp [hk], hkt⟩

theorem tryKs_first :
    ∀ (ks : List Nat) (rest : List Char) (K : Nat) (r : List Char × List Char),
      ks.Pairwise (· > ·) → K ∈ ks → tryTail rest K = some r →
      (∀ k, K < k → tryTail rest k = none) → tryKs ks rest = some r := by
  intro ks
  induction ks with
  | nil => intro rest K r _ hK _ _; simp at hK
  | cons k0 ks ih =>
      intro rest K r hsort hK htT hfail
      rw [List.pairwise_cons] at hsort
      by_cases h0 : k0 = K
      · subst h0
        simp only [tryKs, htT]
      · have hmem : K ∈ ks := by
          rcases List.mem_cons.mp hK with h | h
          · exact absurd h.symm h0
          · exact h
        have hgt : k0 > K := hsort.1 K hmem
        simp only [tryKs, hfail k0 hgt]
        exact ih rest K r hsort.2 hmem htT hfail

theorem mem_kDescend_bounds {k : Nat} (h : k ∈ kDescend) : 8 ≤ k ∧ k ≤ 16 := by
  simp [kDescend] at h
  rcases h with rfl | rfl | rfl | rfl | rfl | rfl | rfl | rfl | rfl <;> omega

theorem mem_kDescend_of_bounds {k : Nat} (h8 : 8 ≤ k) (h16 : k ≤ 16) : k ∈ kDescend := by
  interval_cases k <;> simp [kDescend]

theorem matchCore_sound {c : Char} {rest m after : List Char}
    (h : matchCore c rest = some (m, after)) :
    ∃ run d, m = c :: run ++ [d] ∧ rest = run ++ d :: after ∧ c.isDigit = true ∧
      8 ≤ run.length ∧ run.length ≤ 16 ∧ run.all isRunChar = true ∧
      isTailChar d = true ∧ atBoundary after = true := by
  unfold matchCore at h
  by_cases hc : c.isDigit = true
  · rw [if_pos hc] at h
    cases htk : tryKs kDescend rest with
    | none => rw [htk] at h; simp at h
    | some pr =>
        obtain ⟨m0, after0⟩ := pr
        rw [htk] at h
        simp only [Option.some.injEq, Prod.mk.injEq] at h
        obtain ⟨h1, h2⟩ := h
        subst h1; subst h2
        obtain ⟨k, hk, hkt⟩ := tryKs_sound kDescend rest (m0, after0) htk
        obtain ⟨run, d, hm, hrest, hlen, hall, hd, hb⟩ := tryTail_sound hkt
        obtain ⟨h8, h16⟩ := mem_kDescend_bounds hk
        subst hm
        exact ⟨run, d, by simp, hrest, hc, by omega, by omega, hall, hd, hb⟩
  · rw [if_neg hc] at h
    simp at h

theorem matchCore_complete {c d : Char} {mid : List Char}
    (hc : c.isDigit = true) (hd : isTailChar d = true)
    (hmid : mid.all isRunChar = true) (h8 : 8 ≤ mid.length) (h16 : mid.length ≤ 16) :
    matchCore c (mid ++ [d]) = some (c :: mid ++ [d], []) := by
  unfold matchCore
  rw [if_pos hc]
  have htT : tryTail (mid ++ [d]) mid.length = some (mid ++ [d], []) := by
    unfold tryTail
    have htake : (mid ++ [d]).take mid.length = mid := by
      simpa using List.take_left mid [d]
    have hdrop : (mid ++ [d]).drop mid.length = [d] := by
      simpa using List.drop_left mid [d]
    rw [takeRunExact_complete mid.length (mid ++ [d])
      (by simp [List.length_append]) (by rw [htake]; exact hmid), htake, hdrop]
    simp [hd, atBoundary]
  have hfail : ∀ k, mid.length < k → tryTail (mid ++ [d]) k = none := by
    intro k hk
    rcases Nat.lt_or_ge (mid ++ [d]).length k with h | h
    · exact tryTail_overflow h
    · have : k = (mid ++ [d]).length := by
        simp only [List.length_append, List.length_cons, List.length_nil] at h ⊢
        omega
      subst this
      exact tryTail_full
  rw [tryKs_first kDescend (mid ++ [d]) mid.length (mid ++ [d], [])
    (by decide) (mem_kDescend_of_bounds h8 h16) htT hfail]
  rfl

theorem finditerAux_pos_lb :
    ∀ (fuel : Nat) (prev : Bool) (pos : Nat) (l : List Char) (s : Nat) (m : List Char),
      (s, m) ∈ finditerAux fuel prev pos l → pos ≤ s := by
  intro fuel
  induction fuel with
  | zero => intro prev pos l s m h; simp [finditerAux] at h
  | succ fuel ih =>
      intro prev pos l s m h
      cases l with
      | nil => simp [finditerAux] at h
      | cons c rest =>
          simp only [finditerAux] at h
          by_cases hp : prev = true
          · rw [if_pos hp] at h
            have := ih _ _ _ _ _ h
            omega
          · rw [if_neg hp] at h
            cases hmc : matchCore c rest with
            | none =>
                rw [hmc] at h
                dsimp only at h
                have := ih _ _ _ _ _ h
                omega
            | some pr =>
                obtain ⟨m0, after0⟩ := pr
                rw [hmc] at h
                dsimp only at h
                rcases List.mem_cons.mp h with heq | hmem
                · have : s = pos := congrArg Prod.fst heq
                  omega
                · have := ih _ _ _ _ _ hmem
                  omega

theorem finditerAux_pairwise :
    ∀ (fuel : Nat) (prev : Bool) (pos : Nat) (l : List Char),
      (finditerAux fuel prev pos l).Pairwise (fun a b => a.1 + a.2.length ≤ b.1) := by
  intro fuel
  induction fuel with
  | zero => intro prev pos l; simp [finditerAux]
  | succ fuel ih =>
      intro prev pos l
      cases l with
      | nil => simp [finditerAux]
      | cons c rest =>
          simp only [finditerAux]
          by_cases hp : prev = true
          · rw [if_pos hp]; exact ih _ _ _
          · rw [if_neg hp]
            cases hmc : matchCore c rest with
            | none => exact ih _ _ _
            | some pr =>
                obtain ⟨m0, after0⟩ := pr
                dsimp only
                rw [List.pairwise_cons]
                refine ⟨?_, ih _ _ _⟩
                intro b hb
                have := finditerAux_pos_lb _ _ _ _ b.1 b.2 (by simpa using hb)
                simpa using this

theorem finditerAux_sound :
    ∀ (fuel : Nat) (prev : Bool) (pos : Nat) (l : List Char) (s : Nat) (m : List Char),
      (s, m) ∈ finditerAux fuel prev pos l →
      ∃ i c rest after, s = pos + i ∧ l.drop i = c :: rest ∧
        matchCore c rest = some (m, after) ∧
        (i = 0 → prev = false) ∧
        (∀ j, i = j + 1 → ((l.getD j ' ').isDigit = false)) := by
  intro fuel
  induction fuel with
  | zero => intro prev pos l s m h; simp [finditerAux] at h
  | succ fuel ih =>
      intro prev pos l s m h
      cases l with
      | nil => simp [finditerAux] at h
      | cons c0 rest0 =>
          simp only [finditerAux] at h
          by_cases hp : prev = true
          · rw [if_pos hp] at h
            obtain ⟨i', c, rest, after, hs, hdrop, hmc, hzero, hlook⟩ := ih _ _ _ _ _ h
            refine ⟨i' + 1, c, rest, after, by omega, by simpa using hdrop, hmc, by omega, ?_⟩
            intro j hj
            cases j with
            | zero =>
                have hi0 : i' = 0 := by omega
                have := hzero hi0
                simpa using this
            | succ j' =>
                have := hlook j' (by omega)
                simpa using this
          · have hp' : prev = false := by revert hp; cases prev <;> simp
            rw [if_neg hp] at h
            cases hmc : matchCore c0 rest0 with
            | none =>
                rw [hmc] at h
                dsimp only at h
                obtain ⟨i', c, rest, after, hs, hdrop, hmc', hzero, hlook⟩ := ih _ _ _ _ _ h
                refine ⟨i' + 1, c, rest, after, by omega, by simpa using hdrop, hmc', by omega, ?_⟩
                intro j hj
                cases j with
                | zero =>
                    have hi0 : i' = 0 := by omega
                    have := hzero hi0
                    simpa using this
                | succ j' =>
                    have := hlook j' (by omega)
                    simpa using this
            | some pr =>
                obtain ⟨m0, after0⟩ := pr
                rw [hmc] at h
                dsimp only at h
                rcases List.mem_cons.mp h with heq | hmem
                · have hs : s = pos := congrArg Prod.fst heq
                  have hm : m = m0 := congrArg Prod.snd heq
                  subst hm
                  refine ⟨0, c0, rest0, after0, by omega, by simp, hmc, fun _ => hp', ?_⟩
                  intro j hj
                  omega
                · obtain ⟨run, d, hm0, hrest0, hcdig, h8, h16, hallrun, hd, hb⟩ :=
                    matchCore_sound hmc
                  have hl : c0 :: rest0 = m0 ++ after0 := by
                    rw [hm0, hrest0]
                    simp
                  obtain ⟨i', c, rest, after, hs, hdrop, hmc', hzero, hlook⟩ := ih _ _ _ _ _ hmem
                  have hm0len : m0.length = run.length + 2 := by
                    rw [hm0]
                    simp [List.length_append]
                  refine ⟨m0.length + i', c, rest, after, by omega, ?_, hmc', by omega, ?_⟩
                  · rw [hl, List.drop_append i']
                    exact hdrop
                  · intro j hj
                    cases i' with
                    | zero =>
                        have hj' : j = run.length + 1 := by omega
                        have hld : lastDigit m0 = false := hzero rfl
                        have hgl : m0.getLast? = some d := by
                          rw [hm0, show c0 :: run ++ [d] = (c0 :: run) ++ [d] by simp]
                          exact List.getLast?_concat _
                        have hdd : d.isDigit = false := by
                          unfold lastDigit at hld
                          rw [hgl] at hld
                          exact hld
                        have hrw : (c0 :: rest0).getD j ' ' = d := by
                          rw [hl, List.getD_append _ _ _ _ (by omega : j < m0.length)]
                          rw [hm0, show c0 :: run ++ [d] = (c0 :: run) ++ [d] by simp,
                            List.getD_append_right _ _ _ _
                              (by simp [List.length_cons]; omega)]
                          simp [hj', List.length_cons]
                        rw [hrw]
                        exact hdd
                    | succ j' =>
                        have hjj : j = m0.length + j' := by omega
                        have hafter := hlook j' rfl
                        rw [hl, hjj, List.getD_append_right _ _ _ _ (by omega)]
                        simpa using hafter

theorem finditerAux_nil (fuel : Nat) (prev : Bool) (pos : Nat) :
    finditerAux fuel prev pos [] = [] := by
  cases fuel <;> rfl

theorem isRunChar_of_isDigit {c : Char} (h : c.isDigit = true) : isRunChar c = true := by
  simp [isRunChar, h]

theorem finditer_standalone :
    ∀ (c d : Char) (mid : List Char), c.isDigit = true → isTailChar d = true →
      mid.all isRunChar = true → 8 ≤ mid.length → mid.length ≤ 16 →
      finditer (c :: mid ++ [d]) = [(0, c :: mid ++ [d])] := by
  intro c d mid hc hd hmid h8 h16
  have hmc := matchCore_complete hc hd hmid h8 h16
  unfold finditer
  have hlen : (c :: mid ++ [d]).length = mid.length + 1 + 1 := by
    simp [List.length_cons, List.length_append]
  rw [hlen]
  simp only [finditerAux, Bool.false_eq_true, if_false, List.append_eq, hmc, finditerAux_nil]

/-- C3 counterexample: on a text of eighteen digits the extractor's raw scan
produces one matched span of length 18, and on a run of nine digits it
produces none, against the claimed 9-to-17-character bounds. -/
theorem finditer_raw_matches_cex :
    (0, str "123456789012345678") ∈ finditer (str "123456789012345678") ∧
      (str "123456789012345678").length = 18 ∧
      finditer (str "123456789") = [] := by
  refine ⟨by decide, by decide, by decide⟩

/-- C3 (amended): every raw matched span has between 10 and 18 characters:
it starts with a digit, all but its last character are digits, hyphens or
spaces, it ends in a digit or X or x, it occurs verbatim at its reported
position, that position is not immediately preceded by a digit, matching is
left-to-right without overlap, and every standalone such span of 10 to 18
characters is matched in full. -/
theorem finditer_raw_matches :
    (∀ (text : List Char) (s : Nat) (m : List Char), (s, m) ∈ finditer text →
        10 ≤ m.length ∧ m.length ≤ 18 ∧
        m.dropLast.all isRunChar = true ∧
        (∃ c, m.head? = some c ∧ c.isDigit = true) ∧
        (∃ d, m.getLast? = some d ∧ isTailChar d = true) ∧
        (text.drop s).take m.length = m ∧
        (s = 0 ∨ (text.getD (s - 1) ' ').isDigit = false)) ∧
      (∀ text : List Char, (finditer text).Pairwise (fun a b => a.1 + a.2.length ≤ b.1)) ∧
      (∀ (c d : Char) (mid : List Char), c.isDigit = true → isTailChar d = true →
        mid.all isRunChar = true → 8 ≤ mid.length → mid.length ≤ 16 →
        finditer (c :: mid ++ [d]) = [(0, c :: mid ++ [d])]) := by
  refine ⟨?_, fun text => finditerAux_pairwise _ _ _ _, finditer_standalone⟩
  intro text s m h
  obtain ⟨i, c, rest, after, hs, hdrop, hmc, hzero, hlook⟩ :=
    finditerAux_sound _ _ _ _ _ _ h
  obtain ⟨run, d, hm, hrest, hcdig, h8, h16, hall, hd, hb⟩ := matchCore_sound hmc
  have hmlen : m.length = run.length + 2 := by
    rw [hm]; simp [List.length_cons, List.length_append]
  have hsi : s = i := by omega
  have htext : text.drop s = m ++ after := by
    rw [hsi, hdrop, hrest, hm]
    simp
  refine ⟨by omega, by omega, ?_, ?_, ?_, ?_, ?_⟩
  · rw [hm, show c :: run ++ [d] = (c :: run) ++ [d] by simp, List.dropLast_concat]
    simp [List.all_cons, isRunChar_of_isDigit hcdig, hall]
  · exact ⟨c, by rw [hm]; rfl, hcdig⟩
  · refine ⟨d, ?_, hd⟩
    rw [hm, show c :: run ++ [d] = (c :: run) ++ [d] by simp]
    exact List.getLast?_concat _
  · rw [htext]
    exact List.take_left m after
  · cases i with
    | zero => exact Or.inl (by omega)
    | succ j =>
        refine Or.inr ?_
        have := hlook j rfl
        have hsj : s - 1 = j := by omega
        rw [hsj]
        exact this

/-- Witness for the amended C3 theorem at concrete inputs. -/
theorem finditer_raw_matches_witness :
    10 ≤ (str "0-306-40615-2").length ∧
      finditer (str "1234567 89X") = [(0, str "1234567 89X")] := by
  constructor
  · exact (finditer_raw_matches.1 (str "ISBN 0-306-40615-2") 5 (str "0-306-40615-2")
      (by decide)).1
  · have h := finditer_raw_matches.2.2 '1' 'X' (str "234567 89")
      (by decide) (by decide) (by decide) (by decide) (by decide)
    rw [show str "1234567 89X" = '1' :: str "234567 89" ++ ['X'] by decide]
    exact h

theorem normUp_length (s : List Char) : (normUp s).length = (stripHS s).length := by
  simp [normUp]

/-- Classification used by `process_single_dump` on one candidate: length 10
goes to the ISBN-10 validator, length 13 to the ISBN-13 validator, anything
else is marked invalid. -/
def classifyCandidate (c : Candidate) : Bool :=
  if (stripHS c.isbn).length = 10 then validate_isbn10 c.isbn
  else if (stripHS c.isbn).length = 13 then validate_isbn13 c.isbn
  else false

/-- Format label written by `save_failed_isbns_to_csv` for one candidate. -/
def isbnFormatLabel (isbn : List Char) : List Char :=
  if (stripHS isbn).length = 10 then str "ISBN-10"
  else if (stripHS isbn).length = 13 then str "ISBN-13"
  else str "Invalid (" ++ Nat.toDigits 10 (stripHS isbn).length ++ str " digits)"

theorem find_potential_isbns_mem {text : List Char} {ctx prox : Nat} {c : Candidate}
    (h : c ∈ find_potential_isbns text ctx prox) :
    ∃ s : Nat, (s, c.isbn) ∈ finditer (stripUrls text) ∧
      has_isbn_nearby (stripUrls text) s (s + c.isbn.length) prox = true ∧
      (((normUp c.isbn).length = 10 ∧ ((normUp c.isbn).take 9).all Char.isDigit = true ∧
          isTail10 ((normUp c.isbn).getD 9 ' ') = true) ∨
        ((normUp c.isbn).length = 13 ∧ (normUp c.isbn).all Char.isDigit = true)) := by
  unfold find_potential_isbns at h
  obtain ⟨p, hp, hf⟩ := List.mem_filterMap.mp h
  obtain ⟨s, m⟩ := p
  dsimp only at hf
  by_cases h10 : (normUp m).length = 10
  · rw [if_pos h10] at hf
    by_cases hsh : (((normUp m).take 9).all Char.isDigit && isTail10 ((normUp m).getD 9 ' ')) = true
    · rw [if_pos hsh] at hf
      by_cases hnear : has_isbn_nearby (stripUrls text) s (s + m.length) prox = true
      · rw [if_pos hnear] at hf
        simp only [Option.some.injEq] at hf
        subst hf
        rw [Bool.and_eq_true] at hsh
        exact ⟨s, hp, hnear, Or.inl ⟨h10, hsh.1, hsh.2⟩⟩
      · rw [if_neg hnear] at hf
        exact absurd hf (by simp)
    · rw [if_neg hsh] at hf
      exact absurd hf (by simp)
  · rw [if_neg h10] at hf
    by_cases h13 : (normUp m).length = 13
    · rw [if_pos h13] at hf
      by_cases hdig : (normUp m).all Char.isDigit = true
      · rw [if_pos hdig] at hf
        by_cases hnear : has_isbn_nearby (stripUrls text) s (s + m.length) prox = true
        · rw [if_pos hnear] at hf
          simp only [Option.some.injEq] at hf
          subst hf
          exact ⟨s, hp, hnear, Or.inr ⟨h13, hdig⟩⟩
        · rw [if_neg hnear] at hf
          exact absurd hf (by simp)
      · rw [if_neg hdig] at hf
        exact absurd hf (by simp)
    · rw [if_neg h13] at hf
      exact absurd hf (by simp)

/-- C9: every candidate kept by `find_potential_isbns` has a hyphen/space
stripped form of length exactly 10 (nine digits then a digit-or-X after
upper-casing) or exactly 13 (all digits); hence the classifier's
anything-else branch and the CSV writer's invalid-length label never fire on
extractor output. -/
theorem extractor_candidates_wellformed :
    ∀ (text : List Char) (ctx prox : Nat) (c : Candidate),
      c ∈ find_potential_isbns text ctx prox →
      (((stripHS c.isbn).length = 10 ∧ ((normUp c.isbn).take 9).all Char.isDigit = true ∧
          isTail10 ((normUp c.isbn).getD 9 ' ') = true) ∨
        ((stripHS c.isbn).length = 13 ∧ (normUp c.isbn).all Char.isDigit = true)) ∧
      classifyCandidate c =
        (if (stripHS c.isbn).length = 10 then validate_isbn10 c.isbn
          else validate_isbn13 c.isbn) ∧
      (isbnFormatLabel c.isbn = str "ISBN-10" ∨ isbnFormatLabel c.isbn = str "ISBN-13") := by
  intro text ctx prox c h
  obtain ⟨s, hmem, hnear, hshape⟩ := find_potential_isbns_mem h
  have hlen := normUp_length c.isbn
  rcases hshape with ⟨h10, ha, hb⟩ | ⟨h13, ha⟩
  · have h10' : (stripHS c.isbn).length = 10 := by omega
    refine ⟨Or.inl ⟨h10', ha, hb⟩, ?_, Or.inl ?_⟩
    · simp [classifyCandidate, h10']
    · simp [isbnFormatLabel, h10']
  · have h13' : (stripHS c.isbn).length = 13 := by omega
    refine ⟨Or.inr ⟨h13', ha⟩, ?_, Or.inr ?_⟩
    · simp [classifyCandidate, h13']
    · simp [isbnFormatLabel, h13']

/-- Witness for the C9 theorem at a concrete extractor run. -/
theorem extractor_candidates_wellformed_witness :
    isbnFormatLabel (str "0-306-40615-2") = str "ISBN-10" := by
  have h := extractor_candidates_wellformed (str "ISBN 0-306-40615-2 great book") 50 6
    { isbn := str "0-306-40615-2", context := str "ISBN 0-306-40615-2 great book" }
    (by decide)
  exact h.2.2.resolve_right (by decide)

/-- C6: a candidate is kept only when `has_isbn_nearby` succeeds for its raw
match, i.e. the marker `isbn` (case-insensitive) ends within the proximity
window immediately before the match start, searched at most
`proximity + 4` characters back; with the default windows the text without a
marker yields no candidates and the marked text yields exactly one candidate
normalizing to 0306406152. -/
theorem nearby_marker_gate :
    (∀ (text : List Char) (ctx prox : Nat) (c : Candidate),
        c ∈ find_potential_isbns text ctx prox →
        ∃ s : Nat, (s, c.isbn) ∈ finditer (stripUrls text) ∧
          has_isbn_nearby (stripUrls text) s (s + c.isbn.length) prox = true) ∧
      find_potential_isbns (str "Call 1234567890 now") 50 6 = [] ∧
      (find_potential_isbns (str "ISBN 0-306-40615-2 great book") 50 6).map
        (fun c => normUp c.isbn) = [str "0306406152"] := by
  refine ⟨?_, by decide, by decide⟩
  intro text ctx prox c h
  obtain ⟨s, hmem, hnear, -⟩ := find_potential_isbns_mem h
  exact ⟨s, hmem, hnear⟩

/-- Witness for the C6 theorem at the marked example text. -/
theorem nearby_marker_gate_witness :
    ∃ s : Nat,
      (s, str "0-306-40615-2") ∈ finditer (stripUrls (str "ISBN 0-306-40615-2 great book")) ∧
        has_isbn_nearby (stripUrls (str "ISBN 0-306-40615-2 great book")) s
          (s + (str "0-306-40615-2").length) 6 = true :=
  nearby_marker_gate.1 (str "ISBN 0-306-40615-2 great book") 50 6
    { isbn := str "0-306-40615-2", context := str "ISBN 0-306-40615-2 great book" }
    (by decide)

/-! ### The per-dump pipeline, dispatcher and report statistics -/

/-- One streamed article: title and raw text. -/
structure Article where
  title : List Char
  text : List Char
deriving DecidableEq

/-- `os.path.basename`: the part of a path after the last slash. -/
def afterLastSlash (p : List Char) : List Char :=
  (p.reverse.takeWhile (fun c => !(c = '/'))).reverse

/-- Occurrence of the literal `wiki-` at the head of the list. -/
def wikiDashAt : List Char → Bool
  | 'w' :: 'i' :: 'k' :: 'i' :: '-' :: _ => true
  | _ => false

/-- The backtracking match of the anchored pattern: one or more lowercase
letters, greedy, followed by the literal `wiki-`; the captured letters. -/
def langFromBasename (b : List Char) : Option (List Char) :=
  let run := (b.takeWhile Char.isLower).length
  ((List.range run).reverse.map (fun j => j + 1)).findSome?
    (fun k => if wikiDashAt (b.drop k) then some (b.take k) else none)

/-- `get_language_from_dump_path` from `src/main.py`, defaulting to `en`. -/
def get_language_from_dump_path (p : List Char) : List Char :=
  match langFromBasename (afterLastSlash p) with
  | some l => l
  | none => str "en"

/-- Canonical article URL assembled by `process_single_dump`. -/
def mkUrl (language title : List Char) : List Char :=
  str "https://" ++ language ++ str ".wikipedia.org/wiki/" ++
    title.map (fun c => if c = ' ' then '_' else c)

/-- Per-article result retained when at least one candidate was found. -/
structure ArticleResult where
  title : List Char
  language : List Char
  url : List Char
  total_found : Nat
  valid_isbns : List Candidate
  invalid_isbns : List Candidate
deriving DecidableEq

/-- The per-article body of `process_single_dump`: extract candidates,
classify each into the valid or invalid bucket, and build a result only when
candidates were found. -/
def processArticle (language : List Char) (ctx prox : Nat) (a : Article) :
    Option ArticleResult :=
  let rs := find_potential_isbns a.text ctx prox
  if rs.isEmpty then none
  else some
    { title := a.title
      language := language
      url := mkUrl language a.title
      total_found := rs.length
      valid_isbns := rs.filter classifyCandidate
      invalid_isbns := rs.filter (fun c => !classifyCandidate c) }

instance exceptDecEq {ε α : Type} [DecidableEq ε] [DecidableEq α] :
    DecidableEq (Except ε α) := fun a b =>
  match a, b with
  | .error e1, .error e2 =>
      if h : e1 = e2 then isTrue (by rw [h])
      else isFalse (fun hc => h (by injection hc))
  | .error _, .ok _ => isFalse (fun hc => Except.noConfusion hc)
  | .ok _, .error _ => isFalse (fun hc => Except.noConfusion hc)
  | .ok a1, .ok a2 =>
      if h : a1 = a2 then isTrue (by rw [h])
      else isFalse (fun hc => h (by injection hc))

/-- One dump file as the pipeline sees it: its path, the outcome of decoding
and parsing it (an error, or the streamed articles), and its wall-clock
processing time, supplied by the environment. -/
structure DumpOutcome where
  path : List Char
  content : Except (List Char) (List Article)
  elapsed : ℚ
deriving DecidableEq

/-- `process_single_dump` from `src/main.py`: a decode/parse failure is an
exception; otherwise the streamed articles are processed in order and the
results, elapsed time and processed-article count are returned. -/
def process_single_dump (d : DumpOutcome) (ctx prox : Nat) :
    Except (List Char) (List ArticleResult × ℚ × Nat) :=
  match d.content with
  | .error e => .error e
  | .ok articles =>
      .ok (articles.filterMap (processArticle (get_language_from_dump_path d.path) ctx prox),
        d.elapsed, articles.length)

/-- `process_single_dump_worker` from `src/main.py`: catches the exception and
returns `(dump_path, results, elapsed_time, error_message, article_count)`. -/
def process_single_dump_worker (ctx prox : Nat) (d : DumpOutcome) :
    List Char × List ArticleResult × ℚ × Option (List Char) × Nat :=
  match process_single_dump d ctx prox with
  | .ok (results, elapsed, count) => (d.path, results, elapsed, none, count)
  | .error e => (d.path, [], 0, some e, 0)

/-- The run-level accumulator of `process_all_dumps`: concatenated results,
per-language time and article-count dictionaries, total article count. -/
structure RunAggregate where
  all_results : List ArticleResult
  language_times : List (List Char × ℚ)
  total_articles : Nat
  language_counts : List (List Char × Nat)
deriving DecidableEq

def emptyAgg : RunAggregate :=
  { all_results := [], language_times := [], total_articles := 0, language_counts := [] }

/-- The Python dictionary update `if k not in d: d[k] = 0` then `d[k] += v`,
on an insertion-ordered association list. -/
def dictAdd {α : Type} [Add α] (m : List (List Char × α)) (k : List Char) (v : α) :
    List (List Char × α) :=
  if m.any (fun p => p.1 = k) then
    m.map (fun p => if p.1 = k then (p.1, p.2 + v) else p)
  else m ++ [(k, v)]

/-- Dictionary lookup on the association list. -/
def dictGet {α : Type} (m : List (List Char × α)) (k : List Char) : Option α :=
  (m.find? (fun p => p.1 = k)).map (fun p => p.2)

/-- Accumulation of one successful dump into the aggregate, shared by the
sequential loop and the dispatcher's merge loop. -/
def addDump (acc : RunAggregate) (lang : List Char) (results : List ArticleResult)
    (t : ℚ) (count : Nat) : RunAggregate :=
  { all_results := acc.all_results ++ results
    language_times := dictAdd acc.language_times lang t
    total_articles := acc.total_articles + count
    language_counts := dictAdd acc.language_counts lang count }

/-- The sequential branch of `process_all_dumps`: no exception handler, so a
failing dump aborts the whole loop. -/
def seqRun (ctx prox : Nat) : List DumpOutcome → RunAggregate → Except (List Char) RunAggregate
  | [], acc => .ok acc
  | d :: ds, acc =>
    match process_single_dump d ctx prox with
    | .error e => .error e
    | .ok (results, t, count) =>
        seqRun ctx prox ds (addDump acc (get_language_from_dump_path d.path) results t count)

/-- One step of the dispatcher's merge loop over worker tuples: a tuple
carrying an error is logged and skipped, a successful one is accumulated. -/
def mergeStep (acc : RunAggregate)
    (w : List Char × List ArticleResult × ℚ × Option (List Char) × Nat) : RunAggregate :=
  match w with
  | (path, results, t, err, count) =>
    match err with
    | some _ => acc
    | none => addDump acc (get_language_from_dump_path path) results t count

/-- The dispatcher's merge of the pool's worker tuples, in completion order. -/
def mergeWorkerResults
    (ws : List (List Char × List ArticleResult × ℚ × Option (List Char) × Nat)) :
    RunAggregate :=
  ws.foldl mergeStep emptyAgg

/-- The parallel branch of `process_all_dumps`: run every worker, then merge. -/
def mergeWorkers (ds : List DumpOutcome) (ctx prox : Nat) : RunAggregate :=
  mergeWorkerResults (ds.map (process_single_dump_worker ctx prox))

/-- Worker-count normalization of `process_all_dumps`: `-1` means all cores
minus one, then clamp between 1 and `min(number of files, cores)`. -/
def effectiveWorkers (workers : Int) (nfiles cpu : Nat) : Int :=
  let w : Int := if workers = -1 then (cpu : Int) - 1 else workers
  max 1 (min w (min (nfiles : Int) (cpu : Int)))

/-- `process_all_dumps` from `src/main.py`: empty directory short-circuits;
one effective worker runs the sequential loop; otherwise the worker pool runs
and the merge loop skips failed files. -/
def process_all_dumps (dumps : List DumpOutcome) (ctx prox : Nat) (workers : Int)
    (cpu : Nat) : Except (List Char) RunAggregate :=
  if dumps.isEmpty then .ok emptyAgg
  else if effectiveWorkers workers dumps.length cpu = 1 then
    seqRun ctx prox dumps emptyAgg
  else .ok (mergeWorkers dumps ctx prox)

/-! ### Report-builder statistics (`save_report`) -/

def totalValidOf (results : List ArticleResult) : Nat :=
  (results.map (fun r => r.valid_isbns.length)).sum

def totalInvalidOf (results : List ArticleResult) : Nat :=
  (results.map (fun r => r.invalid_isbns.length)).sum

def totalIsbnsOf (results : List ArticleResult) : Nat :=
  totalValidOf results + totalInvalidOf results

/-- The overall unique-valid set: note the source strips hyphens and spaces
but does not upper-case here. -/
def uniqueValidOf (results : List ArticleResult) : Finset (List Char) :=
  ((results.flatMap (fun r => r.valid_isbns)).map (fun c => stripHS c.isbn)).toFinset

/-- The overall unique-invalid set, same stripping without upper-casing. -/
def uniqueInvalidOf (results : List ArticleResult) : Finset (List Char) :=
  ((results.flatMap (fun r => r.invalid_isbns)).map (fun c => stripHS c.isbn)).toFinset

def langFilter (results : List ArticleResult) (lang : List Char) : List ArticleResult :=
  results.filter (fun r => r.language = lang)

def langArticlesOf (results : List ArticleResult) (lang : List Char) : Nat :=
  (langFilter results lang).length

def langValidOf (results : List ArticleResult) (lang : List Char) : Nat :=
  totalValidOf (langFilter results lang)

def langInvalidOf (results : List ArticleResult) (lang : List Char) : Nat :=
  totalInvalidOf (langFilter results lang)

def langTotalOf (results : List ArticleResult) (lang : List Char) : Nat :=
  langValidOf results lang + langInvalidOf results lang

def langUniqueValidOf (results : List ArticleResult) (lang : List Char) : Finset (List Char) :=
  uniqueValidOf (langFilter results lang)

def langUniqueInvalidOf (results : List ArticleResult) (lang : List Char) : Finset (List Char) :=
  uniqueInvalidOf (langFilter results lang)

/-- The overall pass rate written by `save_report`, with its zero guard. -/
def overallPassRate (results : List ArticleResult) : ℚ :=
  if totalIsbnsOf results > 0 then
    (totalValidOf results : ℚ) / (totalIsbnsOf results : ℚ) * 100
  else 0

/-- The per-language pass rate written by `save_report`, with its zero guard. -/
def langPassRate (results : List ArticleResult) (lang : List Char) : ℚ :=
  if langTotalOf results lang > 0 then
    (langValidOf results lang : ℚ) / (langTotalOf results lang : ℚ) * 100
  else 0

/-- The seen-set loop of `deduplicate_isbns`. -/
def dedupGo (seen : Finset (List Char)) : List (List Char) → List (List Char)
  | [] => []
  | x :: xs =>
    if normUp x ∈ seen then dedupGo seen xs
    else x :: dedupGo (insert (normUp x) seen) xs

/-- `deduplicate_isbns` from `src/main.py`: keep the first token of each
normalized (stripped, upper-cased) class, in original order and format. -/
def deduplicate_isbns (isbns : List (List Char)) : List (List Char) :=
  dedupGo ∅ isbns

example : get_language_from_dump_path (str "dumps/enwiki-20240101-pages.bz2") = str "en" := by
  decide
example : get_language_from_dump_path (str "weird.bz2") = str "en" := by decide

theorem rate_eq_and_bounds (v t : Nat) (hvt : v ≤ t) :
    ((t = 0 → (if t > 0 then (v : ℚ) / (t : ℚ) * 100 else 0) = 0) ∧
      (0 < t → (if t > 0 then (v : ℚ) / (t : ℚ) * 100 else 0) = (v : ℚ) / (t : ℚ) * 100) ∧
      0 ≤ (if t > 0 then (v : ℚ) / (t : ℚ) * 100 else 0) ∧
      (if t > 0 then (v : ℚ) / (t : ℚ) * 100 else 0) ≤ 100) := by
  by_cases ht : 0 < t
  · rw [if_pos ht]
    have htq : (0 : ℚ) < t := by exact_mod_cast ht
    have hvq : (v : ℚ) ≤ (t : ℚ) := by exact_mod_cast hvt
    refine ⟨fun h0 => absurd h0 (by omega), fun _ => rfl, ?_, ?_⟩
    · apply mul_nonneg
      · exact div_nonneg (by positivity) (le_of_lt htq)
      · norm_num
    · calc (v : ℚ) / (t : ℚ) * 100 ≤ 1 * 100 := by
            apply mul_le_mul_of_nonneg_right _ (by norm_num)
            exact (div_le_one htq).mpr hvq
        _ = 100 := by norm_num
  · have ht0 : t = 0 := by omega
    subst ht0
    norm_num

/-- C8: the pass rate written by the report builder equals
valid/(valid+invalid)×100 when at least one candidate exists and is exactly 0
when there are none, overall and per language; the value is a plain rational
between 0 and 100, so the zero-denominator case raises no error and produces
no NaN. -/
theorem pass_rate_guarded :
    ∀ results : List ArticleResult,
      (totalIsbnsOf results = 0 → overallPassRate results = 0) ∧
      (0 < totalIsbnsOf results →
        overallPassRate results
          = (totalValidOf results : ℚ) / (totalIsbnsOf results : ℚ) * 100) ∧
      0 ≤ overallPassRate results ∧ overallPassRate results ≤ 100 ∧
      (∀ lang : List Char,
        (langTotalOf results lang = 0 → langPassRate results lang = 0) ∧
        (0 < langTotalOf results lang →
          langPassRate results lang
            = (langValidOf results lang : ℚ) / (langTotalOf results lang : ℚ) * 100) ∧
        0 ≤ langPassRate results lang ∧ langPassRate results lang ≤ 100) := by
  intro results
  have h1 := rate_eq_and_bounds (totalValidOf results) (totalIsbnsOf results)
    (Nat.le_add_right _ _)
  refine ⟨h1.1, h1.2.1, h1.2.2.1, h1.2.2.2, ?_⟩
  intro lang
  have h2 := rate_eq_and_bounds (langValidOf results lang) (langTotalOf results lang)
    (Nat.le_add_right _ _)
  exact ⟨h2.1, h2.2.1, h2.2.2.1, h2.2.2.2⟩

/-- A one-article result set with a single valid candidate, for witnesses. -/
def sampleResult : ArticleResult :=
  { title := str "T"
    language := str "en"
    url := str "U"
    total_found := 1
    valid_isbns := [{ isbn := str "0306406152", context := str "c" }]
    invalid_isbns := [] }

/-- Witness for the C8 theorem: the empty run reports 0, a run with one valid
candidate reports 100. -/
theorem pass_rate_guarded_witness :
    overallPassRate [] = 0 ∧ overallPassRate [sampleResult] = 100 := by
  constructor
  · exact (pass_rate_guarded []).1 rfl
  · have h := (pass_rate_guarded [sampleResult]).2.1 (by decide)
    rw [show totalValidOf [sampleResult] = 1 from rfl,
      show totalIsbnsOf [sampleResult] = 1 from rfl] at h
    rw [h]
    norm_num

/-- C4 counterexample: the report builder's unique sets strip hyphens and
spaces but do not upper-case, so two candidates whose normalized (stripped,
upper-cased) forms coincide are counted as two distinct unique identifiers. -/
theorem normalization_key_cex :
    normUp (str "030640615X") = normUp (str "030640615x") ∧
      (uniqueInvalidOf [{ title := str "T", language := str "en", url := str "U",
                          total_found := 2,
                          valid_isbns := [],
                          invalid_isbns := [{ isbn := str "030640615X", context := str "c1" },
                            { isbn := str "030640615x", context := str "c2" }] }]).card = 2 := by
  exact ⟨by decide, by decide⟩

/-- C4 (amended): `deduplicate_isbns` keys on the hyphen/space-stripped,
upper-cased form, keeping one representative per normalized class; the report
builder's unique valid/invalid sets (overall and per language) instead key on
the hyphen/space-stripped form without upper-casing, so tokens with equal
stripped forms are counted once there, while tokens differing only in the
case of a trailing x are counted separately. -/
theorem normalization_key_amended :
    (∀ a b : List Char,
        deduplicate_isbns [a, b] = if normUp b = normUp a then [a] else [a, b]) ∧
      (∀ (r : ArticleResult) (c d : Candidate),
        stripHS c.isbn = stripHS d.isbn → r.invalid_isbns = [c, d] →
        (uniqueInvalidOf [r]).card = 1 ∧ (langUniqueInvalidOf [r] r.language).card = 1) ∧
      (∀ (r : ArticleResult) (c d : Candidate),
        stripHS c.isbn = stripHS d.isbn → r.valid_isbns = [c, d] →
        (uniqueValidOf [r]).card = 1 ∧ (langUniqueValidOf [r] r.language).card = 1) := by
  have hfilter : ∀ r : ArticleResult, langFilter [r] r.language = [r] := by
    intro r
    simp [langFilter]
  refine ⟨?_, ?_, ?_⟩
  · intro a b
    by_cases h : normUp b = normUp a
    · rw [if_pos h]
      simp [deduplicate_isbns, dedupGo, h]
    · rw [if_neg h]
      simp [deduplicate_isbns, dedupGo, h]
  · intro r c d hcd hr
    have hset : uniqueInvalidOf [r] = {stripHS d.isbn} := by
      simp [uniqueInvalidOf, hr, hcd]
    constructor
    · rw [hset]
      exact Finset.card_singleton _
    · rw [show langUniqueInvalidOf [r] r.language = uniqueInvalidOf [r] from by
        unfold langUniqueInvalidOf
        rw [hfilter r], hset]
      exact Finset.card_singleton _
  · intro r c d hcd hr
    have hset : uniqueValidOf [r] = {stripHS d.isbn} := by
      simp [uniqueValidOf, hr, hcd]
    constructor
    · rw [hset]
      exact Finset.card_singleton _
    · rw [show langUniqueValidOf [r] r.language = uniqueValidOf [r] from by
        unfold langUniqueValidOf
        rw [hfilter r], hset]
      exact Finset.card_singleton _

/-- A one-article result whose two invalid candidates differ only in
hyphenation, for the C4 witness. -/
def caseResult : ArticleResult :=
  { title := str "T"
    language := str "en"
    url := str "U"
    total_found := 2
    valid_isbns := []
    invalid_isbns := [{ isbn := str "03-0640615X", context := str "c1" },
      { isbn := str "0306-40615X", context := str "c2" }] }

/-- Witness for the amended C4 theorem at concrete tokens. -/
theorem normalization_key_amended_witness :
    deduplicate_isbns [str "0-306-40615-2", str "0306406152"] = [str "0-306-40615-2"] ∧
      (uniqueInvalidOf [caseResult]).card = 1 := by
  constructor
  · have h := normalization_key_amended.1 (str "0-306-40615-2") (str "0306406152")
    rw [h, if_pos (by decide)]
  · exact (normalization_key_amended.2.1 caseResult
      { isbn := str "03-0640615X", context := str "c1" }
      { isbn := str "0306-40615X", context := str "c2" } (by decide) rfl).1

/-- A healthy dump with one ISBN-bearing article, for C5 and C10. -/
def okDump : DumpOutcome :=
  { path := str "dumps/enwiki-1.bz2"
    content := Except.ok [{ title := str "T", text := str "ISBN 0-306-40615-2 here" }]
    elapsed := 3 }

/-- A dump whose decode fails, for C5. -/
def errDump : DumpOutcome :=
  { path := str "dumps/dewiki-1.bz2"
    content := Except.error (str "boom")
    elapsed := 0 }

/-- C5 counterexample: with the default worker-pool size of 1 the dispatcher
takes the sequential branch, which has no exception handler: a failing second
file aborts the whole run and the healthy first file's results are lost. -/
theorem error_isolation_cex :
    process_all_dumps [okDump, errDump] 50 6 1 4 = Except.error (str "boom") := by
  decide

/-- C5 (amended): in the parallel branch (effective pool size at least 2) a
failing file's error is caught by its worker, returned with the file's path,
the file contributes nothing, and all other files are still merged; in the
sequential branch taken for a pool size of 1 (the default), the error
propagates and aborts the run. -/
theorem error_isolation_amended :
    (∀ (ctx prox : Nat) (d : DumpOutcome) (e : List Char),
        d.content = Except.error e →
        process_single_dump_worker ctx prox d = (d.path, [], 0, some e, 0)) ∧
      (∀ (ctx prox : Nat) (xs ys : List DumpOutcome) (d : DumpOutcome) (e : List Char),
        d.content = Except.error e →
        mergeWorkers (xs ++ d :: ys) ctx prox = mergeWorkers (xs ++ ys) ctx prox) ∧
      (∀ (dumps : List DumpOutcome) (ctx prox : Nat) (workers : Int) (cpu : Nat),
        dumps ≠ [] → effectiveWorkers workers dumps.length cpu ≠ 1 →
        process_all_dumps dumps ctx prox workers cpu
          = Except.ok (mergeWorkers dumps ctx prox)) := by
  have hworker : ∀ (ctx prox : Nat) (d : DumpOutcome) (e : List Char),
      d.content = Except.error e →
      process_single_dump_worker ctx prox d = (d.path, [], 0, some e, 0) := by
    intro ctx prox d e hd
    simp [process_single_dump_worker, process_single_dump, hd]
  refine ⟨hworker, ?_, ?_⟩
  · intro ctx prox xs ys d e hd
    unfold mergeWorkers mergeWorkerResults
    rw [List.map_append, List.map_cons, List.foldl_append, List.foldl_cons,
      List.map_append, List.foldl_append]
    congr 1
    rw [hworker ctx prox d e hd]
    rfl
  · intro dumps ctx prox workers cpu hne heff
    unfold process_all_dumps
    rw [if_neg (fun hc => hne (List.isEmpty_iff.mp hc)), if_neg heff]

/-- Witness for the amended C5 theorem at a concrete failing file. -/
theorem error_isolation_amended_witness :
    mergeWorkers [okDump, errDump] 50 6 = mergeWorkers [okDump] 50 6 ∧
      process_all_dumps [okDump, errDump] 50 6 2 4
        = Except.ok (mergeWorkers [okDump, errDump] 50 6) := by
  constructor
  · have h := error_isolation_amended.2.1 50 6 [okDump] [] errDump (str "boom") rfl
    simpa using h
  · exact error_isolation_amended.2.2 [okDump, errDump] 50 6 2 4 (by decide) (by decide)

/-- C10: in `process_single_dump`, every retained ArticleResult counts its
candidates exactly once across the valid and invalid buckets
(`total_found = |valid| + |invalid| > 0`), `total_found` equals the number of
candidates extracted from that article, and an ArticleResult is built for an
article exactly when at least one candidate was found. -/
theorem article_result_counts :
    ∀ (d : DumpOutcome) (ctx prox : Nat) (articles : List Article)
      (res : List ArticleResult) (t : ℚ) (cnt : Nat),
      d.content = Except.ok articles →
      process_single_dump d ctx prox = Except.ok (res, t, cnt) →
      (∀ r ∈ res, r.total_found = r.valid_isbns.length + r.invalid_isbns.length ∧
        0 < r.total_found) ∧
      (∀ a ∈ articles,
        ((∃ r, processArticle (get_language_from_dump_path d.path) ctx prox a = some r ∧
            r.total_found = (find_potential_isbns a.text ctx prox).length) ↔
          find_potential_isbns a.text ctx prox ≠ [])) := by
  intro d ctx prox articles res t cnt hcontent hrun
  have hres : res
      = articles.filterMap (processArticle (get_language_from_dump_path d.path) ctx prox) := by
    unfold process_single_dump at hrun
    rw [hcontent] at hrun
    simp only [Except.ok.injEq, Prod.mk.injEq] at hrun
    exact hrun.1.symm
  constructor
  · intro r hr
    rw [hres] at hr
    obtain ⟨a, ha, hpa⟩ := List.mem_filterMap.mp hr
    unfold processArticle at hpa
    by_cases hempty : (find_potential_isbns a.text ctx prox).isEmpty = true
    · rw [if_pos hempty] at hpa
      exact absurd hpa (by simp)
    · rw [if_neg hempty] at hpa
      simp only [Option.some.injEq] at hpa
      subst hpa
      have hne : find_potential_isbns a.text ctx prox ≠ [] :=
        fun hnil => hempty (by rw [hnil]; rfl)
      refine ⟨?_, ?_⟩
      · exact List.length_eq_length_filter_add classifyCandidate
      · exact List.length_pos.mpr hne
  · intro a ha
    constructor
    · rintro ⟨r, hpa, -⟩ hnil
      unfold processArticle at hpa
      rw [hnil] at hpa
      simp at hpa
    · intro hne
      have hempty : ¬((find_potential_isbns a.text ctx prox).isEmpty = true) :=
        fun hc => hne (List.isEmpty_iff.mp hc)
      have hpa : processArticle (get_language_from_dump_path d.path) ctx prox a
          = some { title := a.title
                   language := get_language_from_dump_path d.path
                   url := mkUrl (get_language_from_dump_path d.path) a.title
                   total_found := (find_potential_isbns a.text ctx prox).length
                   valid_isbns :=
                     (find_potential_isbns a.text ctx prox).filter classifyCandidate
                   invalid_isbns :=
                     (find_potential_isbns a.text ctx prox).filter
                       (fun c => !classifyCandidate c) } := by
        unfold processArticle
        rw [if_neg hempty]
      exact ⟨_, hpa, rfl⟩

/-- Witness for the C10 theorem at the concrete healthy dump. -/
theorem article_result_counts_witness :
    ∃ r, processArticle (get_language_from_dump_path okDump.path) 50 6
        { title := str "T", text := str "ISBN 0-306-40615-2 here" } = some r ∧
      r.total_found
        = (find_potential_isbns (str "ISBN 0-306-40615-2 here") 50 6).length := by
  have h := article_result_counts okDump 50 6
    [{ title := str "T", text := str "ISBN 0-306-40615-2 here" }] _ _ _ rfl rfl
  exact (h.2 { title := str "T", text := str "ISBN 0-306-40615-2 here" } (by decide)).mpr
    (by decide)

/-! ### Order independence of the dispatcher merge -/

theorem totalValidOf_append (xs ys : List ArticleResult) :
    totalValidOf (xs ++ ys) = totalValidOf xs + totalValidOf ys := by
  simp [totalValidOf, List.map_append, List.sum_append]

theorem totalInvalidOf_append (xs ys : List ArticleResult) :
    totalInvalidOf (xs ++ ys) = totalInvalidOf xs + totalInvalidOf ys := by
  simp [totalInvalidOf, List.map_append, List.sum_append]

theorem uniqueValidOf_append (xs ys : List ArticleResult) :
    uniqueValidOf (xs ++ ys) = uniqueValidOf xs ∪ uniqueValidOf ys := by
  simp [uniqueValidOf, List.flatMap_append, List.map_append, List.toFinset_append]

theorem uniqueInvalidOf_append (xs ys : List ArticleResult) :
    uniqueInvalidOf (xs ++ ys) = uniqueInvalidOf xs ∪ uniqueInvalidOf ys := by
  simp [uniqueInvalidOf, List.flatMap_append, List.map_append, List.toFinset_append]

theorem langFilter_append (xs ys : List ArticleResult) (lang : List Char) :
    langFilter (xs ++ ys) lang = langFilter xs lang ++ langFilter ys lang := by
  simp [langFilter, List.filter_append]

theorem totalValidOf_swap (r1 r2 : List ArticleResult) :
    totalValidOf (r1 ++ r2) = totalValidOf (r2 ++ r1) := by
  rw [totalValidOf_append, totalValidOf_append, Nat.add_comm]

theorem totalInvalidOf_swap (r1 r2 : List ArticleResult) :
    totalInvalidOf (r1 ++ r2) = totalInvalidOf (r2 ++ r1) := by
  rw [totalInvalidOf_append, totalInvalidOf_append, Nat.add_comm]

theorem uniqueValidOf_swap (r1 r2 : List ArticleResult) :
    uniqueValidOf (r1 ++ r2) = uniqueValidOf (r2 ++ r1) := by
  rw [uniqueValidOf_append, uniqueValidOf_append, Finset.union_comm]

theorem uniqueInvalidOf_swap (r1 r2 : List ArticleResult) :
    uniqueInvalidOf (r1 ++ r2) = uniqueInvalidOf (r2 ++ r1) := by
  rw [uniqueInvalidOf_append, uniqueInvalidOf_append, Finset.union_comm]

theorem length_append_swap (r1 r2 : List ArticleResult) :
    (r1 ++ r2).length = (r2 ++ r1).length := by
  rw [List.length_append, List.length_append, Nat.add_comm]

theorem langArticlesOf_swap (r1 r2 : List ArticleResult) (lang : List Char) :
    langArticlesOf (r1 ++ r2) lang = langArticlesOf (r2 ++ r1) lang := by
  unfold langArticlesOf
  rw [langFilter_append, langFilter_append]
  exact length_append_swap _ _

theorem langValidOf_swap (r1 r2 : List ArticleResult) (lang : List Char) :
    langValidOf (r1 ++ r2) lang = langValidOf (r2 ++ r1) lang := by
  unfold langValidOf
  rw [langFilter_append, langFilter_append]
  exact totalValidOf_swap _ _

theorem langInvalidOf_swap (r1 r2 : List ArticleResult) (lang : List Char) :
    langInvalidOf (r1 ++ r2) lang = langInvalidOf (r2 ++ r1) lang := by
  unfold langInvalidOf
  rw [langFilter_append, langFilter_append]
  exact totalInvalidOf_swap _ _

theorem langUniqueValidOf_swap (r1 r2 : List ArticleResult) (lang : List Char) :
    langUniqueValidOf (r1 ++ r2) lang = langUniqueValidOf (r2 ++ r1) lang := by
  unfold langUniqueValidOf
  rw [langFilter_append, langFilter_append]
  exact uniqueValidOf_swap _ _

theorem langUniqueInvalidOf_swap (r1 r2 : List ArticleResult) (lang : List Char) :
    langUniqueInvalidOf (r1 ++ r2) lang = langUniqueInvalidOf (r2 ++ r1) lang := by
  unfold langUniqueInvalidOf
  rw [langFilter_append, langFilter_append]
  exact uniqueInvalidOf_swap _ _

theorem overallPassRate_swap (r1 r2 : List ArticleResult) :
    overallPassRate (r1 ++ r2) = overallPassRate (r2 ++ r1) := by
  unfold overallPassRate totalIsbnsOf
  rw [totalValidOf_swap r1 r2, totalInvalidOf_swap r1 r2]

theorem langPassRate_swap (r1 r2 : List ArticleResult) (lang : List Char) :
    langPassRate (r1 ++ r2) lang = langPassRate (r2 ++ r1) lang := by
  unfold langPassRate langTotalOf
  rw [langValidOf_swap r1 r2, langInvalidOf_swap r1 r2]

theorem dictAdd_nil {α : Type} [Add α] (k : List Char) (v : α) :
    dictAdd ([] : List (List Char × α)) k v = [(k, v)] := by
  simp [dictAdd]

theorem dictAdd_single_same {α : Type} [Add α] (k : List Char) (v1 v2 : α) :
    dictAdd [(k, v1)] k v2 = [(k, v1 + v2)] := by
  simp [dictAdd]

theorem dictAdd_single_ne {α : Type} [Add α] {k1 k2 : List Char} (h : ¬(k1 = k2))
    (v1 v2 : α) : dictAdd [(k1, v1)] k2 v2 = [(k1, v1), (k2, v2)] := by
  simp [dictAdd, h]

theorem dictGet_single {α : Type} (k lang : List Char) (v : α) :
    dictGet [(k, v)] lang = if k = lang then some v else none := by
  by_cases h : k = lang <;> simp [dictGet, List.find?, h]

theorem dictGet_pair {α : Type} (k1 k2 lang : List Char) (v1 v2 : α) :
    dictGet [(k1, v1), (k2, v2)] lang
      = if k1 = lang then some v1 else if k2 = lang then some v2 else none := by
  by_cases h1 : k1 = lang <;> by_cases h2 : k2 = lang <;>
    simp [dictGet, List.find?, h1, h2]

theorem dictGet_two_swap {α : Type} [AddCommMonoid α] (k1 k2 : List Char) (v1 v2 : α)
    (lang : List Char) :
    dictGet (dictAdd (dictAdd ([] : List (List Char × α)) k1 v1) k2 v2) lang
      = dictGet (dictAdd (dictAdd ([] : List (List Char × α)) k2 v2) k1 v1) lang := by
  rw [dictAdd_nil, dictAdd_nil]
  by_cases h : k1 = k2
  · subst h
    rw [dictAdd_single_same, dictAdd_single_same, dictGet_single, dictGet_single, add_comm]
  · rw [dictAdd_single_ne h, dictAdd_single_ne (fun hc => h hc.symm),
      dictGet_pair, dictGet_pair]
    by_cases h1 : k1 = lang <;> by_cases h2 : k2 = lang
    · exact absurd (h1.trans h2.symm) h
    · simp [h1, h2]
    · simp [h1, h2]
    · simp [h1, h2]

/-- The counts of a RunAggregate named by the specification: totals,
per-language dictionaries, and every statistic the report builder derives
from the merged result list. Two aggregates with equal counts are
indistinguishable to the report. -/
def MergeObsEq (g1 g2 : RunAggregate) : Prop :=
  g1.total_articles = g2.total_articles ∧
  (∀ lang, dictGet g1.language_times lang = dictGet g2.language_times lang) ∧
  (∀ lang, dictGet g1.language_counts lang = dictGet g2.language_counts lang) ∧
  g1.all_results.length = g2.all_results.length ∧
  totalValidOf g1.all_results = totalValidOf g2.all_results ∧
  totalInvalidOf g1.all_results = totalInvalidOf g2.all_results ∧
  uniqueValidOf g1.all_results = uniqueValidOf g2.all_results ∧
  uniqueInvalidOf g1.all_results = uniqueInvalidOf g2.all_results ∧
  (∀ lang, langArticlesOf g1.all_results lang = langArticlesOf g2.all_results lang) ∧
  (∀ lang, langValidOf g1.all_results lang = langValidOf g2.all_results lang) ∧
  (∀ lang, langInvalidOf g1.all_results lang = langInvalidOf g2.all_results lang) ∧
  (∀ lang, langUniqueValidOf g1.all_results lang = langUniqueValidOf g2.all_results lang) ∧
  (∀ lang, langUniqueInvalidOf g1.all_results lang = langUniqueInvalidOf g2.all_results lang) ∧
  overallPassRate g1.all_results = overallPassRate g2.all_results ∧
  (∀ lang, langPassRate g1.all_results lang = langPassRate g2.all_results lang)

theorem mergeObsEq_refl (g : RunAggregate) : MergeObsEq g g := by
  unfold MergeObsEq
  refine ⟨rfl, fun _ => rfl, fun _ => rfl, rfl, rfl, rfl, rfl, rfl,
    fun _ => rfl, fun _ => rfl, fun _ => rfl, fun _ => rfl, fun _ => rfl, rfl, fun _ => rfl⟩

theorem addDump_swap_obs (l1 l2 : List Char) (r1 r2 : List ArticleResult) (t1 t2 : ℚ)
    (n1 n2 : Nat) :
    MergeObsEq (addDump (addDump emptyAgg l1 r1 t1 n1) l2 r2 t2 n2)
      (addDump (addDump emptyAgg l2 r2 t2 n2) l1 r1 t1 n1) := by
  unfold MergeObsEq addDump emptyAgg
  dsimp only
  simp only [List.nil_append]
  refine ⟨by omega, fun lang => dictGet_two_swap l1 l2 t1 t2 lang,
    fun lang => dictGet_two_swap l1 l2 (n1 : Nat) n2 lang,
    length_append_swap r1 r2, totalValidOf_swap r1 r2, totalInvalidOf_swap r1 r2,
    uniqueValidOf_swap r1 r2, uniqueInvalidOf_swap r1 r2,
    fun lang => langArticlesOf_swap r1 r2 lang, fun lang => langValidOf_swap r1 r2 lang,
    fun lang => langInvalidOf_swap r1 r2 lang,
    fun lang => langUniqueValidOf_swap r1 r2 lang,
    fun lang => langUniqueInvalidOf_swap r1 r2 lang, overallPassRate_swap r1 r2,
    fun lang => langPassRate_swap r1 r2 lang⟩

theorem mergeTwo_obs (w1 w2 : List Char × List ArticleResult × ℚ × Option (List Char) × Nat) :
    MergeObsEq (mergeStep (mergeStep emptyAgg w1) w2)
      (mergeStep (mergeStep emptyAgg w2) w1) := by
  obtain ⟨p1, r1, t1, e1, n1⟩ := w1
  obtain ⟨p2, r2, t2, e2, n2⟩ := w2
  cases e1 with
  | some e1 =>
      cases e2 with
      | some e2 => exact mergeObsEq_refl _
      | none =>
          dsimp only [mergeStep]
          exact mergeObsEq_refl _
  | none =>
      cases e2 with
      | some e2 =>
          dsimp only [mergeStep]
          exact mergeObsEq_refl _
      | none =>
          dsimp only [mergeStep]
          exact addDump_swap_obs _ _ r1 r2 t1 t2 n1 n2

/-- C7: the dispatcher's merge of per-file partial results is commutative for
every observable RunAggregate count: merging the two files' worker tuples in
either order yields the same totals, the same per-language time and
article-count dictionaries, and the same report statistics (article counts,
valid/invalid totals, unique sets, pass rates, overall and per language). -/
theorem merge_order_independent :
    ∀ (A B : DumpOutcome) (ctx prox : Nat),
      MergeObsEq (mergeWorkers [A, B] ctx prox) (mergeWorkers [B, A] ctx prox) := by
  intro A B ctx prox
  exact mergeTwo_obs (process_single_dump_worker ctx prox A)
    (process_single_dump_worker ctx prox B)
